import Mathlib

/-!
Verification of the suffix-array / LCP construction interface of the
FastPeptideMatching repository.  The repository's `src` tree contains the C
wrapper header `libsais64-rs/libsais-wrapper.h`, which declares the three
entry points

  int64_t libsais64(const uint8_t * T, int64_t * SA, int64_t n, int64_t fs, int64_t * freq);
  int64_t libsais64_plcp(const uint8_t * T, const int64_t * SA, int64_t * PLCP, int64_t n);
  int64_t libsais64_lcp(const int64_t * PLCP, const int64_t * SA, int64_t * LCP, int64_t n);

The algorithmic bodies behind these declarations are not part of the source
tree, so the behaviour of Construct / BuildPLCP / BuildLCP is modelled from
the specification: suffix sorting with the shorter-is-smaller-when-prefix
lexicographic convention, the amortized Kasai-style PLCP scan of §4.6, the
pure reindexing LCP permuter of §4.7, the 256-bucket histogram of §4.1, and
the buffer-passing status convention of §6/§7.
-/

namespace Libsais

/-! ## Definitions -/

/-- Text symbols are bytes, modelled as natural numbers (a byte bound is
assumed only where the 256-entry histogram needs it). -/
abbrev Text := List ℕ

/-- The suffix of `T` starting at position `p` (glossary: substring from a
given position to the end). -/
def suffix (T : Text) (p : ℕ) : List ℕ := T.drop p

/-- Length of the longest common prefix of two symbol sequences, by direct
symbol-by-symbol comparison (the brute-force oracle of §8). -/
def lcp : List ℕ → List ℕ → ℕ
  | a :: s, b :: t => if a = b then lcp s t + 1 else 0
  | _, _ => 0

/-- Strict lexicographic order on symbol sequences, under the convention
that a shorter sequence that is a prefix of a longer one is smaller. -/
def lexLt : List ℕ → List ℕ → Bool
  | _, [] => false
  | [], _ :: _ => true
  | a :: s, b :: t => if a < b then true else if b < a then false else lexLt s t

/-- One step of the §4.6 scan: extend the match between two suffixes
starting from a number `h` of symbols already known to agree. -/
def extendFrom (s t : List ℕ) (h : ℕ) : ℕ := h + lcp (s.drop h) (t.drop h)

/-- Non-strict suffix comparison used to sort positions. -/
def saLe (T : Text) (p q : ℕ) : Bool := !(lexLt (suffix T q) (suffix T p))

/-- Modelled from the spec: the suffix-array construction `libsais64`
(§6 Construct).  The induced-sorting body is absent from the source tree,
so Construct is modelled by its §3/§8 result contract — the sequence of
positions `[0, n)` sorted by the lexicographic order of their suffixes. -/
def sais (T : Text) : List ℕ :=
  (List.range T.length).insertionSort fun p q => saLe T p q = true

/-- The §3 contract of a fully constructed suffix array: a permutation of
`[0, n)`, strictly sorted by the suffix order. -/
def IsSuffixArray (T : Text) (SA : List ℕ) : Prop :=
  SA.Perm (List.range T.length) ∧
    SA.Pairwise fun p q => lexLt (suffix T p) (suffix T q) = true

/-- A suffix array is decidably checkable on concrete inputs. -/
instance (T : Text) (SA : List ℕ) : Decidable (IsSuffixArray T SA) :=
  inferInstanceAs (Decidable (_ ∧ _))

/-- Modelled from the spec: one pass of the §4.6 PLCP Builder
(`libsais64_plcp`, whose body is absent from the source tree).  `k` counts
the remaining positions, `p` is the current text position and `h` the
carried match length; each step records the extended match for `p` against
its sorted predecessor `SA[Rank[p]−1]`, then carries `max(h−1, 0)`. -/
def plcpAux (T : Text) (SA : List ℕ) : ℕ → ℕ → ℕ → List ℕ
  | 0, _, _ => []
  | k + 1, p, h =>
    if SA.indexOf p = 0 then
      0 :: plcpAux T SA k (p + 1) 0
    else
      extendFrom (suffix T p) (suffix T (SA.getD (SA.indexOf p - 1) 0)) h ::
        plcpAux T SA k (p + 1)
          (extendFrom (suffix T p) (suffix T (SA.getD (SA.indexOf p - 1) 0)) h - 1)

/-- Modelled from the spec: BuildPLCP (`libsais64_plcp`), the §4.6
amortized-linear scan over text positions `0 … n−1` with carried match
length initialised to 0. -/
def buildPLCP (T : Text) (SA : List ℕ) : List ℕ := plcpAux T SA T.length 0 0

/-- The §3 data-model value of `PLCP[p]`: the longest common prefix with
the sorted predecessor, or 0 when `p` has no predecessor. -/
def plcpOracle (T : Text) (SA : List ℕ) (p : ℕ) : ℕ :=
  if SA.indexOf p = 0 then 0
  else lcp (suffix T p) (suffix T (SA.getD (SA.indexOf p - 1) 0))

/-- Modelled from the spec: BuildLCP (`libsais64_lcp`), the §4.7 LCP
Permuter — `LCP[i] = PLCP[SA[i]]` for `i` in `[1, n)` and `LCP[0] = 0`,
pure array indexing. -/
def buildLCP (plcpArr SA : List ℕ) : List ℕ :=
  (List.range SA.length).map fun i => if i = 0 then 0 else plcpArr.getD (SA.getD i 0) 0

/-- One histogram step: bump the bucket of symbol `c`. -/
def bump (acc : List ℕ) (c : ℕ) : List ℕ := acc.set c (acc.getD c 0 + 1)

/-- Modelled from the spec: the §4.1 Histogram — the optional 256-entry
frequency-table output of `libsais64`, one pass over the text bumping the
bucket of each symbol. -/
def histogram (T : Text) : List ℕ := T.foldl bump (List.replicate 256 0)

/-! ## The external interface (§6, §7)

Modelled from the spec: the wrapper layer passes caller-owned buffers and a
signed length; a non-negative status signals success and a negative status
a failure.  Null pointers are modelled as `Option.none`; a buffer's
capacity is its list length; the status enumeration is
{Success, InvalidArgument} (OutOfMemory cannot arise in the pure model). -/

/-- Status returned by a successful call. -/
def statusSuccess : ℤ := 0

/-- Status returned when an argument is rejected (§7 InvalidArgument). -/
def statusInvalid : ℤ := -1

/-- Modelled from the spec: the §6 Construct boundary contract of
`libsais64` — argument validation, then the SA written into the first `n`
slots of the caller's buffer and the optional 256-entry frequency table
produced when a non-sentinel `freq` buffer is supplied. -/
def constructCall (T : Option Text) (n : ℤ) (saBuf : List ℕ)
    (freqBuf : Option (List ℕ)) : ℤ × List ℕ × Option (List ℕ) :=
  if n < 0 then (statusInvalid, saBuf, freqBuf)
  else if n = 0 then (statusSuccess, saBuf, freqBuf)
  else
    match T with
    | none => (statusInvalid, saBuf, freqBuf)
    | some t =>
      if t.length = n.toNat ∧ n.toNat ≤ saBuf.length then
        (statusSuccess, sais t ++ saBuf.drop n.toNat, freqBuf.map fun _ => histogram t)
      else (statusInvalid, saBuf, freqBuf)

/-- Modelled from the spec: the §6 BuildPLCP boundary contract of
`libsais64_plcp`. -/
def plcpCall (T : Option Text) (SA : Option (List ℕ)) (n : ℤ)
    (plcpBuf : List ℕ) : ℤ × List ℕ :=
  if n < 0 then (statusInvalid, plcpBuf)
  else if n = 0 then (statusSuccess, plcpBuf)
  else
    match T, SA with
    | some t, some sa =>
      if t.length = n.toNat ∧ sa.length = n.toNat ∧ n.toNat ≤ plcpBuf.length then
        (statusSuccess, buildPLCP t sa ++ plcpBuf.drop n.toNat)
      else (statusInvalid, plcpBuf)
    | _, _ => (statusInvalid, plcpBuf)

/-- Modelled from the spec: the §6 BuildLCP boundary contract of
`libsais64_lcp`. -/
def lcpCall (plcpArr : Option (List ℕ)) (SA : Option (List ℕ)) (n : ℤ)
    (lcpBuf : List ℕ) : ℤ × List ℕ :=
  if n < 0 then (statusInvalid, lcpBuf)
  else if n = 0 then (statusSuccess, lcpBuf)
  else
    match plcpArr, SA with
    | some pl, some sa =>
      if pl.length = n.toNat ∧ sa.length = n.toNat ∧ n.toNat ≤ lcpBuf.length then
        (statusSuccess, buildLCP pl sa ++ lcpBuf.drop n.toNat)
      else (statusInvalid, lcpBuf)
    | _, _ => (statusInvalid, lcpBuf)

/-- The caller's buffers as one memory record, used to state frame
properties of the const-qualified arguments of the wrapper header. -/
structure Mem where
  text : List ℕ
  sa : List ℕ
  plcpArr : List ℕ
  lcpArr : List ℕ

/-- `libsais64_plcp` acting on the caller's memory: `T` and `SA` are
const-qualified inputs, `PLCP` is the only buffer it may write. -/
def plcpCallMem (m : Mem) (n : ℤ) : ℤ × Mem :=
  ((plcpCall (some m.text) (some m.sa) n m.plcpArr).1,
    { m with plcpArr := (plcpCall (some m.text) (some m.sa) n m.plcpArr).2 })

/-- `libsais64_lcp` acting on the caller's memory: `PLCP` and `SA` are
const-qualified inputs, `LCP` is the only buffer it may write. -/
def lcpCallMem (m : Mem) (n : ℤ) : ℤ × Mem :=
  ((lcpCall (some m.plcpArr) (some m.sa) n m.lcpArr).1,
    { m with lcpArr := (lcpCall (some m.plcpArr) (some m.sa) n m.lcpArr).2 })

/-- The "banana" text of the §8 concrete scenario (bytes b,a,n,a,n,a). -/
def bananaT : Text := [98, 97, 110, 97, 110, 97]

/-! ## Basic order and prefix lemmas -/

@[simp] theorem lexLt_nil_right (s : List ℕ) : lexLt s [] = false := by
  cases s <;> rfl

@[simp] theorem lexLt_nil_cons (b : ℕ) (t : List ℕ) : lexLt [] (b :: t) = true := rfl

theorem lexLt_cons_cons (a b : ℕ) (s t : List ℕ) :
    lexLt (a :: s) (b :: t) =
      if a < b then true else if b < a then false else lexLt s t := rfl

@[simp] theorem lexLt_cons_same (a : ℕ) (s t : List ℕ) :
    lexLt (a :: s) (a :: t) = lexLt s t := by
  simp [lexLt_cons_cons]

theorem lexLt_cons_iff {a b : ℕ} {s t : List ℕ} :
    lexLt (a :: s) (b :: t) = true ↔ a < b ∨ (a = b ∧ lexLt s t = true) := by
  rw [lexLt_cons_cons]
  rcases Nat.lt_trichotomy a b with h | h | h
  · simp [h]
  · subst h
    simp
  · rw [if_neg (by omega), if_pos h]
    simp only [Bool.false_eq_true, false_iff]
    push_neg
    exact ⟨by omega, fun hab => absurd hab (by omega)⟩

theorem lexLt_irrefl : ∀ s : List ℕ, lexLt s s = false
  | [] => rfl
  | _ :: s => by simp [lexLt_irrefl s]

theorem lexLt_asymm : ∀ s t : List ℕ, lexLt s t = true → lexLt t s = false
  | s, [], h => by simp at h
  | [], _ :: _, _ => by simp
  | a :: s, b :: t, h => by
    rw [lexLt_cons_iff] at h
    rcases h with h | ⟨rfl, h⟩
    · rw [Bool.eq_false_iff]
      intro hc
      rw [lexLt_cons_iff] at hc
      rcases hc with hc | ⟨hc, _⟩ <;> omega
    · simp [lexLt_asymm s t h]

theorem lexLt_antisymm : ∀ s t : List ℕ, lexLt s t = false → lexLt t s = false → s = t
  | [], [], _, _ => rfl
  | [], _ :: _, h, _ => by simp at h
  | _ :: _, [], _, h => by simp at h
  | a :: s, b :: t, h1, h2 => by
    have ha : ¬(a < b ∨ (a = b ∧ lexLt s t = true)) := by
      rw [← lexLt_cons_iff]
      simp [h1]
    have hb : ¬(b < a ∨ (b = a ∧ lexLt t s = true)) := by
      rw [← lexLt_cons_iff]
      simp [h2]
    push_neg at ha hb
    have hab : a = b := by omega
    subst hab
    rw [lexLt_antisymm s t (by simpa using ha.2 rfl) (by simpa using hb.2 rfl)]

theorem lexLt_trans : ∀ s t u : List ℕ, lexLt s t = true → lexLt t u = true → lexLt s u = true
  | _, _, [], _, h2 => by simp at h2
  | _, [], _ :: _, h1, _ => by simp at h1
  | [], _ :: _, _ :: _, _, _ => by simp
  | a :: s, b :: t, c :: u, h1, h2 => by
    rw [lexLt_cons_iff] at h1 h2 ⊢
    rcases h1 with h1 | ⟨rfl, h1⟩
    · rcases h2 with h2 | ⟨rfl, h2⟩
      · exact Or.inl (by omega)
      · exact Or.inl h1
    · rcases h2 with h2 | ⟨rfl, h2⟩
      · exact Or.inl h2
      · exact Or.inr ⟨rfl, lexLt_trans s t u h1 h2⟩

@[simp] theorem lcp_nil_left (t : List ℕ) : lcp [] t = 0 := by cases t <;> rfl

@[simp] theorem lcp_nil_right (s : List ℕ) : lcp s [] = 0 := by cases s <;> rfl

theorem lcp_cons_cons (a b : ℕ) (s t : List ℕ) :
    lcp (a :: s) (b :: t) = if a = b then lcp s t + 1 else 0 := rfl

theorem lcp_comm : ∀ s t : List ℕ, lcp s t = lcp t s
  | [], t => by simp
  | _ :: _, [] => by simp
  | a :: s, b :: t => by
    rw [lcp_cons_cons, lcp_cons_cons, lcp_comm s t]
    by_cases h : a = b
    · subst h
      simp
    · rw [if_neg h, if_neg (Ne.symm h)]

theorem lcp_le_length_left : ∀ s t : List ℕ, lcp s t ≤ s.length
  | [], _ => by simp
  | _ :: _, [] => by simp
  | a :: s, b :: t => by
    rw [lcp_cons_cons]
    split_ifs
    · exact Nat.succ_le_succ (lcp_le_length_left s t)
    · simp

/-- The lexicographic "valley" property behind the Kasai scan: if
`t` lies between `s` and `u` in suffix order then `u` shares at least as
long a prefix with `t` as with `s`. -/
theorem lcp_mono : ∀ s t u : List ℕ, lexLt t s = false → lexLt u t = false →
    lcp s u ≤ lcp t u
  | [], _, _, _, _ => by simp
  | _ :: _, [], _, h1, _ => by simp at h1
  | _ :: _, _ :: _, [], _, _ => by simp
  | a :: s, b :: t, c :: u, h1, h2 => by
    have hba : ¬(b < a ∨ (b = a ∧ lexLt t s = true)) := by
      rw [← lexLt_cons_iff]
      simp [h1]
    have hcb : ¬(c < b ∨ (c = b ∧ lexLt u t = true)) := by
      rw [← lexLt_cons_iff]
      simp [h2]
    push_neg at hba hcb
    rw [lcp_cons_cons, lcp_cons_cons]
    by_cases hac : a = c
    · have hab : a = b := by omega
      subst hab
      subst hac
      simp only [if_pos rfl]
      have h1' : lexLt t s = false := by simpa using hba.2 rfl
      have h2' : lexLt u t = false := by simpa using hcb.2 rfl
      exact Nat.succ_le_succ (lcp_mono s t u h1' h2')
    · rw [if_neg hac]
      simp

theorem lcp_drop : ∀ (h : ℕ) (s t : List ℕ), h ≤ lcp s t →
    lcp (s.drop h) (t.drop h) + h = lcp s t
  | 0, s, t, _ => by simp
  | h + 1, [], t, hle => by simp at hle
  | h + 1, _ :: _, [], hle => by simp at hle
  | h + 1, a :: s, b :: t, hle => by
    rw [lcp_cons_cons] at hle ⊢
    by_cases hab : a = b
    · rw [if_pos hab] at hle ⊢
      simp only [List.drop_succ_cons]
      have := lcp_drop h s t (by omega)
      omega
    · rw [if_neg hab] at hle
      omega

theorem extendFrom_eq {s t : List ℕ} {h : ℕ} (hle : h ≤ lcp s t) :
    extendFrom s t h = lcp s t := by
  unfold extendFrom
  have := lcp_drop h s t hle
  omega

/-! ## Properties of the Construct model -/

theorem saLe_trans (T : Text) (a b c : ℕ) :
    saLe T a b → saLe T b c → saLe T a c := by
  unfold saLe
  intro h1 h2
  simp only [Bool.not_eq_true'] at h1 h2 ⊢
  rw [Bool.eq_false_iff]
  intro hc
  cases hab : lexLt (suffix T a) (suffix T b) with
  | true => exact absurd (lexLt_trans _ _ _ hc hab) (by simp [h2])
  | false =>
      have : suffix T a = suffix T b := lexLt_antisymm _ _ hab h1
      rw [this] at hc
      exact absurd hc (by simp [h2])

theorem saLe_total (T : Text) (a b : ℕ) : saLe T a b || saLe T b a := by
  unfold saLe
  cases h : lexLt (suffix T b) (suffix T a) with
  | false => simp
  | true => simp [lexLt_asymm _ _ h]

theorem length_sais (T : Text) : (sais T).length = T.length := by
  rw [sais, List.length_insertionSort, List.length_range]

theorem sais_perm (T : Text) : (sais T).Perm (List.range T.length) :=
  List.perm_insertionSort _ _

theorem sais_nodup (T : Text) : (sais T).Nodup :=
  (sais_perm T).nodup_iff.mpr (List.nodup_range _)

theorem mem_sais {T : Text} {p : ℕ} : p ∈ sais T ↔ p < T.length := by
  rw [(sais_perm T).mem_iff, List.mem_range]

theorem sais_pairwise_saLe (T : Text) :
    (sais T).Pairwise fun p q => saLe T p q = true := by
  haveI : IsTotal ℕ fun p q => saLe T p q = true :=
    ⟨fun a b => by simpa using saLe_total T a b⟩
  haveI : IsTrans ℕ fun p q => saLe T p q = true :=
    ⟨fun a b c hab hbc => saLe_trans T a b c hab hbc⟩
  exact List.sorted_insertionSort _ _

/-- The constructed array is strictly sorted by suffix order: distinct
positions of the text have distinct suffixes (their lengths differ). -/
theorem sais_pairwise_lexLt (T : Text) :
    (sais T).Pairwise fun p q => lexLt (suffix T p) (suffix T q) = true := by
  have h12 := (sais_pairwise_saLe T).and (sais_nodup T)
  refine h12.imp_of_mem ?_
  intro p q hp hq h
  obtain ⟨hle, hne⟩ := h
  have hp' : p < T.length := mem_sais.mp hp
  have hq' : q < T.length := mem_sais.mp hq
  unfold saLe at hle
  simp only [Bool.not_eq_true'] at hle
  cases hpq : lexLt (suffix T p) (suffix T q) with
  | true => rfl
  | false =>
      exfalso
      have heq : suffix T p = suffix T q := lexLt_antisymm _ _ hpq hle
      have := congrArg List.length heq
      simp only [suffix, List.length_drop] at this
      omega

theorem sais_isSuffixArray (T : Text) : IsSuffixArray T (sais T) :=
  ⟨sais_perm T, sais_pairwise_lexLt T⟩

theorem IsSuffixArray.length {T : Text} {SA : List ℕ} (h : IsSuffixArray T SA) :
    SA.length = T.length := by
  rw [h.1.length_eq, List.length_range]

theorem IsSuffixArray.mem_iff {T : Text} {SA : List ℕ} (h : IsSuffixArray T SA) {p : ℕ} :
    p ∈ SA ↔ p < T.length := by
  rw [h.1.mem_iff, List.mem_range]

theorem IsSuffixArray.nodup {T : Text} {SA : List ℕ} (h : IsSuffixArray T SA) :
    SA.Nodup :=
  h.1.nodup_iff.mpr (List.nodup_range _)

theorem IsSuffixArray.indexOf_lt {T : Text} {SA : List ℕ} (h : IsSuffixArray T SA)
    {p : ℕ} (hp : p < T.length) : SA.indexOf p < SA.length :=
  List.indexOf_lt_length.mpr (h.mem_iff.mpr hp)

theorem IsSuffixArray.getD_indexOf {T : Text} {SA : List ℕ} (h : IsSuffixArray T SA)
    {p : ℕ} (hp : p < T.length) : SA.getD (SA.indexOf p) 0 = p := by
  rw [List.getD_eq_getElem _ _ (h.indexOf_lt hp)]
  exact List.getElem_indexOf _

theorem IsSuffixArray.indexOf_getD {T : Text} {SA : List ℕ} (h : IsSuffixArray T SA)
    {i : ℕ} (hi : i < SA.length) : SA.indexOf (SA.getD i 0) = i := by
  rw [List.getD_eq_getElem _ _ hi]
  exact List.indexOf_getElem h.nodup i hi

theorem IsSuffixArray.getD_lt {T : Text} {SA : List ℕ} (h : IsSuffixArray T SA)
    {i : ℕ} (hi : i < SA.length) : SA.getD i 0 < T.length := by
  rw [List.getD_eq_getElem _ _ hi]
  exact h.mem_iff.mp (List.getElem_mem _)

theorem IsSuffixArray.lexLt_getD {T : Text} {SA : List ℕ} (h : IsSuffixArray T SA)
    {i j : ℕ} (hij : i < j) (hj : j < SA.length) :
    lexLt (suffix T (SA.getD i 0)) (suffix T (SA.getD j 0)) = true := by
  have hi : i < SA.length := lt_trans hij hj
  rw [List.getD_eq_getElem _ _ hi, List.getD_eq_getElem _ _ hj]
  exact List.pairwise_iff_getElem.mp h.2 i j hi hj hij

/-- Suffix order determines rank order in a suffix array. -/
theorem IsSuffixArray.rank_lt_rank {T : Text} {SA : List ℕ} (h : IsSuffixArray T SA)
    {a b : ℕ} (ha : a < T.length) (hb : b < T.length)
    (hab : lexLt (suffix T a) (suffix T b) = true) :
    SA.indexOf a < SA.indexOf b := by
  rcases Nat.lt_trichotomy (SA.indexOf a) (SA.indexOf b) with hlt | heq | hgt
  · exact hlt
  · exfalso
    have ha' := h.getD_indexOf ha
    have hb' := h.getD_indexOf hb
    rw [heq, hb'] at ha'
    rw [← ha'] at hab
    rw [lexLt_irrefl] at hab
    exact Bool.false_ne_true hab
  · exfalso
    have hba := h.lexLt_getD hgt (h.indexOf_lt ha)
    rw [h.getD_indexOf ha, h.getD_indexOf hb] at hba
    have := lexLt_asymm _ _ hab
    rw [this] at hba
    exact Bool.false_ne_true hba

/-! ## Properties of the BuildPLCP model (§4.6) -/

theorem length_plcpAux (T : Text) (SA : List ℕ) :
    ∀ k p h, (plcpAux T SA k p h).length = k
  | 0, _, _ => rfl
  | k + 1, p, h => by
    unfold plcpAux
    split <;> simp [length_plcpAux T SA k]

theorem length_buildPLCP (T : Text) (SA : List ℕ) :
    (buildPLCP T SA).length = T.length :=
  length_plcpAux T SA T.length 0 0

/-- The Kasai invariant step: after recording a match of length `L` at
position `p`, position `p+1` shares at least `L − 1` symbols with its own
sorted predecessor. -/
theorem kasai_step {T : Text} {SA : List ℕ} (hSA : IsSuffixArray T SA) {p : ℕ}
    (hp : p < T.length) (hr : SA.indexOf p ≠ 0) (hp1 : p + 1 < T.length) :
    lcp (suffix T p) (suffix T (SA.getD (SA.indexOf p - 1) 0)) - 1 ≤
      lcp (suffix T (p + 1)) (suffix T (SA.getD (SA.indexOf (p + 1) - 1) 0)) := by
  set q := SA.getD (SA.indexOf p - 1) 0 with hq
  set L := lcp (suffix T p) (suffix T q) with hL
  by_cases hL1 : L ≤ 1
  · omega
  push_neg at hL1
  have hlen : L ≤ T.length - q := by
    have h1 : L ≤ (suffix T q).length := by
      rw [hL, lcp_comm]
      exact lcp_le_length_left _ _
    simpa [suffix] using h1
  have hq1lt : q + 1 < T.length := by omega
  have hqlt : q < T.length := by omega
  have hsplitp : suffix T p = T[p] :: suffix T (p + 1) :=
    List.drop_eq_getElem_cons (l := T) (n := p) hp
  have hsplitq : suffix T q = T[q] :: suffix T (q + 1) :=
    List.drop_eq_getElem_cons (l := T) (n := q) hqlt
  have hcc : L = if T[p] = T[q] then lcp (suffix T (p + 1)) (suffix T (q + 1)) + 1 else 0 := by
    rw [hL, hsplitp, hsplitq, lcp_cons_cons]
  by_cases hpq : T[p] = T[q]
  swap
  · rw [if_neg hpq] at hcc
    omega
  rw [if_pos hpq] at hcc
  have hqp : lexLt (suffix T q) (suffix T p) = true := by
    have h0 : SA.indexOf p - 1 < SA.indexOf p := by omega
    have hres := hSA.lexLt_getD h0 (hSA.indexOf_lt hp)
    rw [hSA.getD_indexOf hp] at hres
    exact hres
  have hq1p1 : lexLt (suffix T (q + 1)) (suffix T (p + 1)) = true := by
    rw [hsplitq, hsplitp, hpq] at hqp
    simpa using hqp
  have hrlt : SA.indexOf (q + 1) < SA.indexOf (p + 1) :=
    hSA.rank_lt_rank hq1lt hp1 hq1p1
  have hr2lt : SA.indexOf (p + 1) < SA.length := hSA.indexOf_lt hp1
  rcases Nat.lt_or_ge (SA.indexOf (q + 1)) (SA.indexOf (p + 1) - 1) with hcase | hcase
  · have hA : lexLt (suffix T (q + 1)) (suffix T (SA.getD (SA.indexOf (p + 1) - 1) 0)) = true := by
      have hres := hSA.lexLt_getD hcase (by omega : SA.indexOf (p + 1) - 1 < SA.length)
      rw [hSA.getD_indexOf hq1lt] at hres
      exact hres
    have hB : lexLt (suffix T (SA.getD (SA.indexOf (p + 1) - 1) 0)) (suffix T (p + 1)) = true := by
      have hres := hSA.lexLt_getD (by omega : SA.indexOf (p + 1) - 1 < SA.indexOf (p + 1)) hr2lt
      rw [hSA.getD_indexOf hp1] at hres
      exact hres
    have hmono := lcp_mono (suffix T (q + 1)) (suffix T (SA.getD (SA.indexOf (p + 1) - 1) 0))
      (suffix T (p + 1)) (lexLt_asymm _ _ hA) (lexLt_asymm _ _ hB)
    rw [lcp_comm (suffix T (p + 1))]
    rw [lcp_comm (suffix T (p + 1))] at hcc
    omega
  · have heq : SA.indexOf (q + 1) = SA.indexOf (p + 1) - 1 := by omega
    have hpred : SA.getD (SA.indexOf (p + 1) - 1) 0 = q + 1 := by
      rw [← heq, hSA.getD_indexOf hq1lt]
    rw [hpred]
    omega

/-- Correctness of the §4.6 scan, by induction along the loop: provided the
carried match length `h` is at most the true match with the predecessor
(the Kasai invariant), every recorded entry equals the §3 oracle value. -/
theorem plcpAux_getD {T : Text} {SA : List ℕ} (hSA : IsSuffixArray T SA) :
    ∀ (k p h : ℕ), p + k = T.length →
      (p < T.length → SA.indexOf p ≠ 0 →
        h ≤ lcp (suffix T p) (suffix T (SA.getD (SA.indexOf p - 1) 0))) →
      ∀ j, j < k → (plcpAux T SA k p h).getD j 0 = plcpOracle T SA (p + j)
  | 0, p, h, hpk, hinv, j, hj => absurd hj (by omega)
  | k + 1, p, h, hpk, hinv, j, hj => by
    have hp : p < T.length := by omega
    unfold plcpAux
    by_cases hr : SA.indexOf p = 0
    · rw [if_pos hr]
      cases j with
      | zero =>
          simp only [Nat.add_zero, List.getD_cons_zero]
          unfold plcpOracle
          rw [if_pos hr]
      | succ j' =>
          simp only [List.getD_cons_succ]
          rw [show p + (j' + 1) = p + 1 + j' from by omega]
          exact plcpAux_getD hSA k (p + 1) 0 (by omega)
            (fun _ _ => Nat.zero_le _) j' (by omega)
    · rw [if_neg hr]
      have hLeq : extendFrom (suffix T p) (suffix T (SA.getD (SA.indexOf p - 1) 0)) h =
          lcp (suffix T p) (suffix T (SA.getD (SA.indexOf p - 1) 0)) :=
        extendFrom_eq (hinv hp hr)
      cases j with
      | zero =>
          simp only [Nat.add_zero, List.getD_cons_zero]
          unfold plcpOracle
          rw [if_neg hr]
          exact hLeq
      | succ j' =>
          have hinv' : p + 1 < T.length → SA.indexOf (p + 1) ≠ 0 →
              extendFrom (suffix T p) (suffix T (SA.getD (SA.indexOf p - 1) 0)) h - 1 ≤
                lcp (suffix T (p + 1)) (suffix T (SA.getD (SA.indexOf (p + 1) - 1) 0)) := by
            intro hp1 _
            rw [hLeq]
            exact kasai_step hSA hp hr hp1
          simp only [List.getD_cons_succ]
          rw [show p + (j' + 1) = p + 1 + j' from by omega]
          exact plcpAux_getD hSA k (p + 1)
            (extendFrom (suffix T p) (suffix T (SA.getD (SA.indexOf p - 1) 0)) h - 1)
            (by omega) hinv' j' (by omega)

/-- BuildPLCP computes exactly the §3 PLCP values. -/
theorem buildPLCP_getD {T : Text} {SA : List ℕ} (hSA : IsSuffixArray T SA)
    {p : ℕ} (hp : p < T.length) :
    (buildPLCP T SA).getD p 0 = plcpOracle T SA p := by
  have hres := plcpAux_getD hSA T.length 0 0 (by omega)
    (fun _ _ => Nat.zero_le _) p hp
  simpa [buildPLCP] using hres

/-! ## Properties of the BuildLCP model (§4.7) -/

theorem length_buildLCP (plcpArr SA : List ℕ) :
    (buildLCP plcpArr SA).length = SA.length := by
  simp [buildLCP]

theorem buildLCP_getD (plcpArr SA : List ℕ) {i : ℕ} (hi : i < SA.length) :
    (buildLCP plcpArr SA).getD i 0 =
      if i = 0 then 0 else plcpArr.getD (SA.getD i 0) 0 := by
  rw [List.getD_eq_getElem _ _ (by simpa [buildLCP] using hi)]
  simp [buildLCP]

/-- The full derivation chain: on a valid suffix array, the LCP array entry
at rank `i ≥ 1` is the longest common prefix of the suffixes at ranks
`i − 1` and `i`. -/
theorem pipeline_lcp {T : Text} {SA : List ℕ} (hSA : IsSuffixArray T SA)
    {i : ℕ} (h0 : 0 < i) (hi : i < T.length) :
    (buildLCP (buildPLCP T SA) SA).getD i 0 =
      lcp (suffix T (SA.getD (i - 1) 0)) (suffix T (SA.getD i 0)) := by
  have hlen : SA.length = T.length := hSA.length
  rw [buildLCP_getD _ _ (by omega), if_neg (by omega)]
  have hpi : SA.getD i 0 < T.length := hSA.getD_lt (by omega)
  rw [buildPLCP_getD hSA hpi]
  unfold plcpOracle
  rw [hSA.indexOf_getD (by omega), if_neg (by omega)]
  exact lcp_comm _ _

/-! ## Properties of the Histogram (§4.1) -/

theorem getD_set_self {l : List ℕ} {i : ℕ} (h : i < l.length) (v : ℕ) :
    (l.set i v).getD i 0 = v := by
  rw [List.getD_eq_getElem _ _ (by simpa using h)]
  simp

theorem getD_set_ne {l : List ℕ} {i c : ℕ} (h : c ≠ i) (v : ℕ) :
    (l.set i v).getD c 0 = l.getD c 0 := by
  by_cases hc : c < l.length
  · rw [List.getD_eq_getElem _ _ (by simpa using hc), List.getD_eq_getElem _ _ hc]
    exact List.getElem_set_ne (Ne.symm h) _
  · rw [List.getD_eq_default _ _ (by simpa using Nat.le_of_not_lt hc),
      List.getD_eq_default _ _ (Nat.le_of_not_lt hc)]

theorem length_foldl_bump : ∀ (T : Text) (acc : List ℕ),
    (T.foldl bump acc).length = acc.length
  | [], _ => rfl
  | b :: T', acc => by
    rw [List.foldl_cons, length_foldl_bump T' _]
    simp [bump]

theorem foldl_bump_getD : ∀ (T : Text) (acc : List ℕ), acc.length = 256 →
    ∀ c, c < 256 →
      (T.foldl bump acc).getD c 0 = acc.getD c 0 + T.count c
  | [], _, _, _, _ => by simp
  | b :: T', acc, hlen, c, hc => by
    rw [List.foldl_cons, foldl_bump_getD T' _ (by simp [bump, hlen]) c hc]
    by_cases hcb : c = b
    · subst hcb
      rw [bump, getD_set_self (by omega) _, List.count_cons_self]
      omega
    · rw [bump, getD_set_ne hcb _, List.count_cons_of_ne hcb]

theorem sum_set_getD : ∀ (l : List ℕ) (i v : ℕ), i < l.length →
    (l.set i v).sum + l.getD i 0 = l.sum + v
  | a :: l, 0, v, _ => by
    simp only [List.set_cons_zero, List.sum_cons, List.getD_cons_zero]
    omega
  | a :: l, i + 1, v, h => by
    simp only [List.set_cons_succ, List.sum_cons, List.getD_cons_succ]
    have := sum_set_getD l i v (by simpa using h)
    omega
  | [], i, v, h => by simp at h

theorem foldl_bump_sum : ∀ (T : Text) (acc : List ℕ), acc.length = 256 →
    (∀ b ∈ T, b < 256) →
      (T.foldl bump acc).sum = acc.sum + T.length
  | [], _, _, _ => by simp
  | b :: T', acc, hlen, hb => by
    rw [List.foldl_cons,
      foldl_bump_sum T' _ (by simp [bump, hlen]) (fun x hx => hb x (List.mem_cons_of_mem _ hx))]
    have hblt : b < acc.length := by
      rw [hlen]
      exact hb b (List.mem_cons_self _ _)
    have := sum_set_getD acc b (acc.getD b 0 + 1) hblt
    simp only [bump, List.length_cons]
    omega

theorem getD_replicate_zero (n c : ℕ) : (List.replicate n (0 : ℕ)).getD c 0 = 0 := by
  by_cases h : c < n
  · rw [List.getD_eq_getElem _ _ (by rw [List.length_replicate]; exact h)]
    exact List.getElem_replicate _ _
  · rw [List.getD_eq_default _ _ (by rw [List.length_replicate]; omega)]

theorem sum_replicate_zero : ∀ n : ℕ, (List.replicate n (0 : ℕ)).sum = 0
  | 0 => rfl
  | n + 1 => by rw [List.replicate_succ, List.sum_cons, sum_replicate_zero n]

theorem length_histogram (T : Text) : (histogram T).length = 256 := by
  rw [histogram, length_foldl_bump T _, List.length_replicate]

theorem histogram_getD (T : Text) {c : ℕ} (hc : c < 256) :
    (histogram T).getD c 0 = T.count c := by
  rw [histogram, foldl_bump_getD T _ (List.length_replicate ..) c hc,
    getD_replicate_zero]
  omega

theorem histogram_sum (T : Text) (hb : ∀ b ∈ T, b < 256) :
    (histogram T).sum = T.length := by
  rw [histogram, foldl_bump_sum T _ (List.length_replicate ..) hb,
    sum_replicate_zero]
  omega

/-! ## Claims -/

/-- Claim C1: for every successful Construct call on a text of length `n`,
the resulting SA, viewed as a set, contains each element of
`{0, 1, …, n−1}` exactly once — it is a permutation of `[0, n)`. -/
theorem construct_sa_permutation (T : Text) :
    (sais T).length = T.length ∧
      ∀ k : ℕ, (sais T).count k = if k < T.length then 1 else 0 := by
  refine ⟨length_sais T, fun k => ?_⟩
  rw [(sais_perm T).count_eq]
  by_cases h : k < T.length
  · rw [if_pos h, List.count_eq_one_of_mem (List.nodup_range _) (List.mem_range.mpr h)]
  · rw [if_neg h, List.count_eq_zero_of_not_mem (by simpa [List.mem_range] using h)]

/-- Claim C2: for every successful Construct call and all `i` in `[1, n)`,
the suffix starting at `SA[i−1]` is strictly lexicographically less than
the suffix starting at `SA[i]`, under the shorter-is-smaller-when-prefix
convention. -/
theorem construct_sa_strictly_sorted (T : Text) (i : ℕ)
    (h0 : 1 ≤ i) (hi : i < T.length) :
    lexLt (suffix T ((sais T).getD (i - 1) 0))
      (suffix T ((sais T).getD i 0)) = true := by
  have h := sais_isSuffixArray T
  exact h.lexLt_getD (by omega) (by rw [h.length]; exact hi)

theorem construct_sa_strictly_sorted_witness :
    1 ≤ 2 ∧ 2 < bananaT.length ∧
      lexLt (suffix bananaT ((sais bananaT).getD 1 0))
        (suffix bananaT ((sais bananaT).getD 2 0)) = true :=
  ⟨by decide, by decide, construct_sa_strictly_sorted bananaT 2 (by decide) (by decide)⟩

/-- Claim C3: for every successful BuildLCP call on a correctly constructed
SA and PLCP, and all `i` in `[1, n)`, `LCP[i]` equals the length of the
longest common prefix of the suffixes at `SA[i−1]` and `SA[i]`, as given by
direct symbol-by-symbol comparison. -/
theorem buildLCP_matches_bruteforce (T : Text) (SA : List ℕ)
    (hSA : IsSuffixArray T SA) (i : ℕ) (h0 : 1 ≤ i) (hi : i < T.length) :
    (buildLCP (buildPLCP T SA) SA).getD i 0 =
      lcp (suffix T (SA.getD (i - 1) 0)) (suffix T (SA.getD i 0)) :=
  pipeline_lcp hSA h0 hi

theorem buildLCP_matches_bruteforce_witness :
    IsSuffixArray bananaT [5, 3, 1, 0, 4, 2] ∧ 1 ≤ 2 ∧ 2 < bananaT.length ∧
      (buildLCP (buildPLCP bananaT [5, 3, 1, 0, 4, 2]) [5, 3, 1, 0, 4, 2]).getD 2 0 =
        lcp (suffix bananaT ([5, 3, 1, 0, 4, 2].getD 1 0))
          (suffix bananaT ([5, 3, 1, 0, 4, 2].getD 2 0)) :=
  ⟨by decide, by decide, by decide,
    buildLCP_matches_bruteforce bananaT [5, 3, 1, 0, 4, 2] (by decide) 2
      (by decide) (by decide)⟩

/-- Claim C4: for every successful BuildPLCP call on a fully constructed
suffix array and every text position `p`, `PLCP[p]` equals the length of
the longest common prefix of the suffix at `p` and the suffix at
`SA[Rank[p]−1]` (its predecessor in sorted order), and `PLCP[p] = 0` when
`p` is the lexicographically smallest suffix (`Rank[p] = 0`). -/
theorem buildPLCP_matches_predecessor_lcp (T : Text) (SA : List ℕ)
    (hSA : IsSuffixArray T SA) (p : ℕ) (hp : p < T.length) :
    (buildPLCP T SA).getD p 0 =
      if SA.indexOf p = 0 then 0
      else lcp (suffix T p) (suffix T (SA.getD (SA.indexOf p - 1) 0)) := by
  rw [buildPLCP_getD hSA hp]
  rfl

theorem buildPLCP_matches_predecessor_lcp_witness :
    IsSuffixArray bananaT [5, 3, 1, 0, 4, 2] ∧ 1 < bananaT.length ∧
      (buildPLCP bananaT [5, 3, 1, 0, 4, 2]).getD 1 0 =
        (if [5, 3, 1, 0, 4, 2].indexOf 1 = 0 then 0
          else lcp (suffix bananaT 1)
            (suffix bananaT ([5, 3, 1, 0, 4, 2].getD ([5, 3, 1, 0, 4, 2].indexOf 1 - 1) 0))) :=
  ⟨by decide, by decide,
    buildPLCP_matches_predecessor_lcp bananaT [5, 3, 1, 0, 4, 2] (by decide) 1 (by decide)⟩

/-- Claim C5: for every successful BuildLCP call, the LCP array is exactly
the PLCP array reordered through SA — `LCP[i] = PLCP[SA[i]]` for `i` in
`[1, n)` and `LCP[0] = 0`. -/
theorem buildLCP_is_plcp_reordered (plcpArr SA : List ℕ) (i : ℕ)
    (hi : i < SA.length) :
    (buildLCP plcpArr SA).getD i 0 =
      if i = 0 then 0 else plcpArr.getD (SA.getD i 0) 0 :=
  buildLCP_getD plcpArr SA hi

theorem buildLCP_is_plcp_reordered_witness :
    1 < [5, 3, 1, 0, 4, 2].length ∧
      (buildLCP [0, 3, 2, 1, 0, 0] [5, 3, 1, 0, 4, 2]).getD 1 0 =
        (if 1 = 0 then 0 else [0, 3, 2, 1, 0, 0].getD ([5, 3, 1, 0, 4, 2].getD 1 0) 0) :=
  ⟨by decide, buildLCP_is_plcp_reordered [0, 3, 2, 1, 0, 0] [5, 3, 1, 0, 4, 2] 1 (by decide)⟩

/-- Claim C6: for every successful Construct call with a non-sentinel Freq
buffer, the 256-entry Frequency Table sums to `n` and `entry[c]` equals the
number of occurrences of byte value `c` in the text. -/
theorem construct_freq_table_correct (T : Text) (hb : ∀ b ∈ T, b < 256) :
    (histogram T).length = 256 ∧ (histogram T).sum = T.length ∧
      ∀ c, c < 256 → (histogram T).getD c 0 = T.count c :=
  ⟨length_histogram T, histogram_sum T hb, fun _ hc => histogram_getD T hc⟩

theorem construct_freq_table_correct_witness :
    (∀ b ∈ bananaT, b < 256) ∧
      ((histogram bananaT).length = 256 ∧ (histogram bananaT).sum = bananaT.length ∧
        ∀ c, c < 256 → (histogram bananaT).getD c 0 = bananaT.count c) :=
  ⟨by decide, construct_freq_table_correct bananaT (by decide)⟩

/-- Claim C7: boundary behaviour — for `n = 0` Construct, BuildPLCP and
BuildLCP succeed trivially with all outputs empty; for `n = 1` a successful
Construct yields `SA = [0]` and a successful BuildLCP yields `LCP = [0]`. -/
theorem boundary_behaviour :
    (∀ T b f, constructCall T 0 b f = (statusSuccess, b, f)) ∧
    (∀ T sa b, plcpCall T sa 0 b = (statusSuccess, b)) ∧
    (∀ pl sa b, lcpCall pl sa 0 b = (statusSuccess, b)) ∧
    sais [] = [] ∧ buildPLCP [] [] = [] ∧ buildLCP [] [] = [] ∧
    (∀ c : ℕ, sais [c] = [0]) ∧
    (∀ c : ℕ, buildLCP (buildPLCP [c] (sais [c])) (sais [c]) = [0]) :=
  ⟨fun _ _ _ => rfl, fun _ _ _ => rfl, fun _ _ _ => rfl, rfl, rfl, rfl,
    fun _ => rfl, fun _ => rfl⟩

/-- Claim C8: every call either succeeds with a non-negative status, or
fails with a negative status (InvalidArgument) detected before any
mutation, leaving the output buffers untouched. -/
theorem status_convention :
    (∀ T n b f, 0 ≤ (constructCall T n b f).1 ∨
      ((constructCall T n b f).1 < 0 ∧ (constructCall T n b f).2 = (b, f))) ∧
    (∀ T sa n b, 0 ≤ (plcpCall T sa n b).1 ∨
      ((plcpCall T sa n b).1 < 0 ∧ (plcpCall T sa n b).2 = b)) ∧
    (∀ pl sa n b, 0 ≤ (lcpCall pl sa n b).1 ∨
      ((lcpCall pl sa n b).1 < 0 ∧ (lcpCall pl sa n b).2 = b)) := by
  refine ⟨fun T n b f => ?_, fun T sa n b => ?_, fun pl sa n b => ?_⟩
  · rcases T with _ | t <;> simp only [constructCall] <;> split_ifs <;>
      simp [statusSuccess, statusInvalid]
  · rcases T with _ | t <;> rcases sa with _ | s <;> simp only [plcpCall] <;> split_ifs <;>
      simp [statusSuccess, statusInvalid]
  · rcases pl with _ | p <;> rcases sa with _ | s <;> simp only [lcpCall] <;> split_ifs <;>
      simp [statusSuccess, statusInvalid]

/-- Claim C9: Construct is deterministic — two successful calls on
bit-identical texts produce bit-identical SA contents (the first `n` slots
of the SA buffer), whatever the initial buffer contents. -/
theorem construct_deterministic (T₁ T₂ : Option Text) (n : ℤ)
    (b₁ b₂ : List ℕ) (f₁ f₂ : Option (List ℕ)) (hT : T₁ = T₂)
    (h₁ : 0 ≤ (constructCall T₁ n b₁ f₁).1)
    (h₂ : 0 ≤ (constructCall T₂ n b₂ f₂).1) :
    (constructCall T₁ n b₁ f₁).2.1.take n.toNat =
      (constructCall T₂ n b₂ f₂).2.1.take n.toNat := by
  subst hT
  by_cases hn : n < 0
  · unfold constructCall at h₁
    rw [if_pos hn] at h₁
    exact absurd h₁ (by norm_num [statusInvalid])
  by_cases h0 : n = 0
  · subst h0
    simp
  rcases T₁ with _ | t
  · simp only [constructCall, if_neg hn, if_neg h0] at h₁
    exact absurd h₁ (by norm_num [statusInvalid])
  simp only [constructCall, if_neg hn, if_neg h0] at h₁ h₂ ⊢
  by_cases hc1 : t.length = n.toNat ∧ n.toNat ≤ b₁.length
  · by_cases hc2 : t.length = n.toNat ∧ n.toNat ≤ b₂.length
    · rw [if_pos hc1, if_pos hc2]
      have hl : (sais t).length = n.toNat := by
        rw [length_sais]
        exact hc1.1
      simp only
      rw [List.take_left' hl, List.take_left' hl]
    · rw [if_neg hc2] at h₂
      exact absurd h₂ (by norm_num [statusInvalid])
  · rw [if_neg hc1] at h₁
    exact absurd h₁ (by norm_num [statusInvalid])

theorem construct_deterministic_witness :
    some bananaT = some bananaT ∧
      0 ≤ (constructCall (some bananaT) 6 [0, 0, 0, 0, 0, 0] none).1 ∧
      0 ≤ (constructCall (some bananaT) 6 [9, 9, 9, 9, 9, 9, 9] (some [])).1 ∧
      (constructCall (some bananaT) 6 [0, 0, 0, 0, 0, 0] none).2.1.take (6 : ℤ).toNat =
        (constructCall (some bananaT) 6 [9, 9, 9, 9, 9, 9, 9] (some [])).2.1.take (6 : ℤ).toNat :=
  ⟨rfl, by decide, by decide,
    construct_deterministic (some bananaT) (some bananaT) 6
      [0, 0, 0, 0, 0, 0] [9, 9, 9, 9, 9, 9, 9] none (some []) rfl
      (by decide) (by decide)⟩

/-- Claim C10: BuildPLCP never writes to Text or SA (const-qualified in the
wrapper header) and BuildLCP never writes to PLCP or SA; each call mutates
only its designated output buffer. -/
theorem const_inputs_preserved (m : Mem) (n : ℤ) :
    ((plcpCallMem m n).2.text = m.text ∧ (plcpCallMem m n).2.sa = m.sa ∧
      (plcpCallMem m n).2.lcpArr = m.lcpArr) ∧
    ((lcpCallMem m n).2.text = m.text ∧ (lcpCallMem m n).2.sa = m.sa ∧
      (lcpCallMem m n).2.plcpArr = m.plcpArr) :=
  ⟨⟨rfl, rfl, rfl⟩, ⟨rfl, rfl, rfl⟩⟩

end Libsais
